import Mathlib

/-!
Verification development for jarnsaxa: a recursive converter between nested
Python dictionaries and an HDF5-style hierarchical container (h5py), with a
JSON fallback on write failure, plus a delimiter-based tokenizer with index
tracking (parse_idx).

The Python source (src/jarnsaxa.py) is shallowly embedded here:

  - Python leaf values are the inductive `PyVal` (int, str, bytes, list,
    numpy.ndarray, None, and an opaque unsupported object).  Byte strings
    are carried as their decoded text, so that Python's encode/decode pair
    is the identity on the carried payload, with the bytes/str distinction
    kept in the constructor tag.
  - A Python dict is `PyDict`, an association list in insertion order,
    written as its own cons-list type (mutually inductive with `PyData`) so
    that all traversals are structurally recursive and compute.  A real
    dict cannot hold duplicate keys; the embedding does not depend on key
    uniqueness.
  - The h5py container is `HNode`/`HGroup`: groups hold named entries,
    datasets hold a stored value `HVal`.  `storeVal` models
    `create_dataset`'s conversion: ints stay ints, str/bytes scalars are
    stored as byte strings, and homogeneous sequences become int or
    byte-string arrays.  Values h5py rejects (None, opaque objects,
    mixed-type sequences) yield `none` (an adapter exception in Python).
  - Printing is modelled by returning the printed lines; wall-clock time is
    not modelled (the success message carries no time).
  - `hdf_to_dict`'s file open happens before its try/except, so open
    failures are modelled as `Except.error` (a raised exception), while a
    successfully opened container is traversed totally.
-/

/-- Element of a Python sequence (list or numpy array): an int, a text
string, or a byte string (carried as its decoded text). -/
inductive Elem where
  | eInt (n : Int)
  | eStr (s : String)
  | eBytes (b : String)
deriving DecidableEq

/-- A Python leaf value as seen by `dict_to_hdf` / `hdf_to_dict`. -/
inductive PyVal where
  | vInt (n : Int)
  | vStr (s : String)
  | vBytes (b : String)
  | vList (xs : List Elem)
  | vArr (xs : List Elem)
  | vNone
  | vObj
deriving DecidableEq

mutual

/-- A Python value in a tree: a leaf, or a nested dict. -/
inductive PyData where
  | leaf (v : PyVal)
  | dict (d : PyDict)

/-- A Python dict: an association list of keys and values, in insertion
order. -/
inductive PyDict where
  | nil
  | cons (k : String) (v : PyData) (rest : PyDict)

end

/-- Stored value of an HDF5 dataset as h5py returns it from `fh[k][()]`:
a numeric scalar, a byte-string scalar, or a numpy array of numerics or of
byte strings. -/
inductive HVal where
  | hScalarInt (n : Int)
  | hScalarBytes (b : String)
  | hArrInt (xs : List Int)
  | hArrBytes (xs : List String)
deriving DecidableEq

mutual

/-- A node of the hierarchical container: a group, or a dataset. -/
inductive HNode where
  | dset (v : HVal)
  | grp (g : HGroup)

/-- The named entries of a group, in creation order. -/
inductive HGroup where
  | nil
  | cons (k : String) (n : HNode) (rest : HGroup)

end

/-- The Python type name of a leaf value, as `type(v)` would print it. -/
def typeName : PyVal → String
  | .vInt _ => "int"
  | .vStr _ => "str"
  | .vBytes _ => "bytes"
  | .vList _ => "list"
  | .vArr _ => "numpy.ndarray"
  | .vNone => "NoneType"
  | .vObj => "object"

/-- The message of the exception h5py raises when it rejects a value. -/
def adapterErr (v : PyVal) : String :=
  "no native HDF5 equivalent for type " ++ typeName v

/-- The detail line printed by `write_level` when a dataset write fails and
`show_detail` is set. -/
def detailMsg (k : String) (v : PyVal) : String :=
  "Failed to write dataset " ++ k ++ " with value of type " ++ typeName v
    ++ ". (" ++ adapterErr v ++ ")"

/-- If every element is an int, the list of ints, else `none`. -/
def elemsInt : List Elem → Option (List Int)
  | [] => some []
  | .eInt n :: rest => (elemsInt rest).map (n :: ·)
  | _ => none

/-- If every element is a text string, the list of strings, else `none`. -/
def elemsStr : List Elem → Option (List String)
  | [] => some []
  | .eStr s :: rest => (elemsStr rest).map (s :: ·)
  | _ => none

/-- If every element is a byte string, the list of payloads, else `none`. -/
def elemsBytes : List Elem → Option (List String)
  | [] => some []
  | .eBytes b :: rest => (elemsBytes rest).map (b :: ·)
  | _ => none

/-- How h5py stores a Python sequence: an all-int sequence becomes a numeric
array (an empty sequence becomes an empty numeric array), an all-str or
all-bytes sequence becomes a byte-string array, anything mixed is rejected. -/
def storeSeq (xs : List Elem) : Option HVal :=
  match elemsInt xs with
  | some is => some (.hArrInt is)
  | none =>
    match elemsStr xs with
    | some ss => some (.hArrBytes ss)
    | none =>
      match elemsBytes xs with
      | some bs => some (.hArrBytes bs)
      | none => none

/-- `fh.create_dataset(k, data=v)`: the stored value, or `none` when h5py
raises because the value has no HDF5 representation. -/
def storeVal : PyVal → Option HVal
  | .vInt n => some (.hScalarInt n)
  | .vStr s => some (.hScalarBytes s)
  | .vBytes b => some (.hScalarBytes b)
  | .vList xs => storeSeq xs
  | .vArr xs => storeSeq xs
  | .vNone => none
  | .vObj => none

/-- Whether a leaf value is adapter-representable (create_dataset accepts it). -/
def reprOk (v : PyVal) : Bool :=
  (storeVal v).isSome

/-- Result of one `write_level` call: the entries created under the current
group (in creation order), the boolean the Python function returns, and the
lines it printed. -/
structure WL where
  entries : HGroup
  ok : Bool
  out : List String

/-- `write_level(fh, level_data, show_detail)` from the source.  A dict value
becomes a group and is recursed into — the Python call `write_level(fh[k], v)`
neither forwards `show_detail` nor inspects the recursive return value, which
this embedding reproduces (`write_level false d`, and `r.ok` ignores
`sub.ok`).  A leaf is stored via `storeVal`; on the first failing leaf the
function prints the detail line when `show_detail` is set and returns False,
so later entries of the same level are not written. -/
def write_level (show_detail : Bool) : PyDict → WL
  | .nil => ⟨.nil, true, []⟩
  | .cons k (PyData.dict d) rest =>
    let sub := write_level false d
    let r := write_level show_detail rest
    ⟨.cons k (HNode.grp sub.entries) r.entries, r.ok, sub.out ++ r.out⟩
  | .cons k (PyData.leaf v) rest =>
    match storeVal v with
    | some hv =>
      let r := write_level show_detail rest
      ⟨.cons k (HNode.dset hv) r.entries, r.ok, r.out⟩
    | none =>
      ⟨.nil, false, if show_detail then [detailMsg k v] else []⟩

/-- The first top-level leaf entry of a level whose value the adapter
rejects (sub-dicts are skipped, matching the traversal of `write_level`). -/
def firstFailingLeaf : PyDict → Option (String × PyVal)
  | .nil => none
  | .cons k (PyData.leaf v) rest =>
    if (storeVal v).isSome then firstFailingLeaf rest else some (k, v)
  | .cons _ (PyData.dict _) rest => firstFailingLeaf rest

/-- Every leaf of the tree, at every depth, is adapter-representable. -/
def allRepr : PyDict → Bool
  | .nil => true
  | .cons _ (PyData.leaf v) rest => reprOk v && allRepr rest
  | .cons _ (PyData.dict d) rest => allRepr d && allRepr rest

/-- Whether `json.dumps` accepts a sequence element (bytes are rejected). -/
def jsonOkElem : Elem → Bool
  | .eInt _ => true
  | .eStr _ => true
  | .eBytes _ => false

/-- Whether `json.dumps` accepts a leaf value: ints, text strings, None and
lists of ints/text serialize; bytes, numpy arrays and opaque objects raise. -/
def jsonOkVal : PyVal → Bool
  | .vInt _ => true
  | .vStr _ => true
  | .vBytes _ => false
  | .vList xs => xs.all jsonOkElem
  | .vArr _ => false
  | .vNone => true
  | .vObj => false

/-- Whether `json.dumps(root_data, indent=4)` succeeds on the whole tree. -/
def jsonDumpOk : PyDict → Bool
  | .nil => true
  | .cons _ (PyData.leaf v) rest => jsonOkVal v && jsonDumpOk rest
  | .cons _ (PyData.dict d) rest => jsonDumpOk d && jsonDumpOk rest

/-- The JSON fallback path the source computes: `save_file[:-3] + ".json"`,
i.e. drop the last three characters and append ".json". -/
def codeJsonPath (save_file : String) : String :=
  String.mk (save_file.toList.take (save_file.toList.length - 3)) ++ ".json"

/-- The path the claim describes: keep the base name (everything before the
last dot) and replace the extension with ".json".  This definition follows
the wording of the claim, for comparison with `codeJsonPath`. -/
def specJsonPath (save_file : String) : String :=
  String.mk (((save_file.toList.reverse.dropWhile (fun c => c != '.')).drop 1).reverse)
    ++ ".json"

/-- The success line printed by `dict_to_hdf` (elapsed time not modelled). -/
def wroteMsg : String := "Wrote file in t sec."

/-- The failure line printed by `dict_to_hdf`. -/
def failMsg (exception_str : String) : String :=
  "Failed to write HDF file! (" ++ exception_str ++ ")"

/-- The `exception_str` set when `write_level` returns False. -/
def detailHint : String := "Set show_detail to true for details"

/-- Observable outcome of one `dict_to_hdf` call: the container written to
disk (the file is created by opening in mode w and is closed, not deleted,
on every path), the `hdf_successful` flag, the per-leaf detail lines, the
overall message, the returned boolean, and — when the JSON fallback was
attempted — its path, the indent passed to `json.dumps`, and whether the
dump succeeded. -/
structure WriteResult where
  hdfEntries : HGroup
  hdfFilePresent : Bool
  hdfOk : Bool
  detail : List String
  overallMsg : String
  ret : Bool
  jsonAttempt : Option (String × Nat × Bool)

/-- `dict_to_hdf(root_data, save_file, use_json_backup, show_detail)` from
the source, for executions in which opening `save_file` itself succeeds.
On `write_level` success it prints the timing line and returns True.  On
failure it prints the failure line, attempts the JSON fallback when
requested (path `save_file[:-3] + ".json"`, indent 4), returns False when
that fallback raises, and returns True otherwise — including when no
fallback was requested at all. -/
def dict_to_hdf (root_data : PyDict) (save_file : String)
    (use_json_backup : Bool) (show_detail : Bool) : WriteResult :=
  let w := write_level show_detail root_data
  if w.ok then
    { hdfEntries := w.entries, hdfFilePresent := true, hdfOk := true,
      detail := w.out, overallMsg := wroteMsg, ret := true, jsonAttempt := none }
  else
    { hdfEntries := w.entries, hdfFilePresent := true, hdfOk := false,
      detail := w.out, overallMsg := failMsg detailHint,
      ret := !(use_json_backup && !(jsonDumpOk root_data)),
      jsonAttempt :=
        if use_json_backup then
          some (codeJsonPath save_file, 4, jsonDumpOk root_data)
        else none }

/-- Normalization applied by `read_level` to one raw dataset value.  A
numeric array becomes a list when `to_lists` is set; only when that (or the
dead list-to-array) conversion marked `is_list_type` does the non-empty,
first-element-is-bytes check run and decode every element; a scalar byte
string is decoded exactly when `decode_strs` is set. -/
def readVal (to_lists : Bool) (decode_strs : Bool) : HVal → PyVal
  | .hScalarInt n => .vInt n
  | .hScalarBytes b => if decode_strs then .vStr b else .vBytes b
  | .hArrInt xs =>
    if to_lists then .vList (xs.map Elem.eInt) else .vArr (xs.map Elem.eInt)
  | .hArrBytes xs =>
    if to_lists then
      if 0 < xs.length then .vList (xs.map Elem.eStr)
      else .vList (xs.map Elem.eBytes)
    else .vArr (xs.map Elem.eBytes)

/-- `read_level(fh)` from the source: groups are recursed into, datasets are
read and normalized by `readVal`. -/
def read_level (to_lists : Bool) (decode_strs : Bool) : HGroup → PyDict
  | .nil => .nil
  | .cons k (HNode.grp g) rest =>
    .cons k (PyData.dict (read_level to_lists decode_strs g))
      (read_level to_lists decode_strs rest)
  | .cons k (HNode.dset hv) rest =>
    .cons k (PyData.leaf (readVal to_lists decode_strs hv))
      (read_level to_lists decode_strs rest)

/-- What `h5py.File(filename, r)` finds at a path: no file, a corrupt file
(both make the constructor raise OSError), or a readable container. -/
inductive FileState where
  | absent
  | corrupt
  | valid (entries : HGroup)

/-- `hdf_to_dict(filename, to_lists, decode_strs)` from the source.  The
`h5py.File` open sits outside the try/except, so an open failure is a raised
exception (`Except.error`); once open, the traversal is total here, the
except branch that would return None being reserved for adapter-level read
errors the embedding does not produce. -/
def hdf_to_dict (fs : FileState) (to_lists : Bool) (decode_strs : Bool) :
    Except String (Option PyDict) :=
  match fs with
  | .absent => .error "OSError: unable to open file (no such file)"
  | .corrupt => .error "OSError: unable to open file (file signature not found)"
  | .valid entries => .ok (some (read_level to_lists decode_strs entries))

/-- Element normalization when a sequence is returned in list form: byte
strings are decoded to text. -/
def decodeElem : Elem → Elem
  | .eInt n => .eInt n
  | .eStr s => .eStr s
  | .eBytes b => .eStr b

/-- Element normalization when a sequence is returned in array form: text
strings come back as byte strings. -/
def encodeElem : Elem → Elem
  | .eInt n => .eInt n
  | .eStr s => .eBytes s
  | .eBytes b => .eBytes b

/-- Round-trip normal form of a sequence leaf: list form with byte elements
decoded when `to_lists` is set, array form with text elements encoded to
bytes otherwise. -/
def normSeq (tl : Bool) (xs : List Elem) : PyVal :=
  if tl then .vList (xs.map decodeElem) else .vArr (xs.map encodeElem)

/-- Round-trip normal form of a representable leaf: ints unchanged; text and
byte scalars come back as text exactly when `decode_strs` is set and as
bytes otherwise; sequences per `normSeq`. -/
def normLeaf (tl : Bool) (ds : Bool) : PyVal → PyVal
  | .vInt n => .vInt n
  | .vStr s => if ds then .vStr s else .vBytes s
  | .vBytes b => if ds then .vStr b else .vBytes b
  | .vList xs => normSeq tl xs
  | .vArr xs => normSeq tl xs
  | .vNone => .vNone
  | .vObj => .vObj

/-- Apply a function to every leaf of a tree, keeping keys and structure. -/
def mapLeaves (f : PyVal → PyVal) : PyDict → PyDict
  | .nil => .nil
  | .cons k (PyData.leaf v) rest => .cons k (PyData.leaf (f v)) (mapLeaves f rest)
  | .cons k (PyData.dict d) rest => .cons k (PyData.dict (mapLeaves f d)) (mapLeaves f rest)

/-- The `StringIdx` class from the source: a token with its start index and
(one past the) end index in the input it was cut from.  Python strings are
embedded as lists of characters. -/
structure StringIdx where
  str : List Char
  idx : Nat
  idx_end : Nat
deriving DecidableEq

/-- `itertools.groupby(input, lambda x: x in delims)`: the maximal runs of
consecutive characters sharing the key `f`, as (key, run) pairs in order. -/
def groupRuns (f : Char → Bool) : List Char → List (Bool × List Char)
  | [] => []
  | c :: cs =>
    match groupRuns f cs with
    | [] => [(f c, [c])]
    | (k, g) :: rest =>
      if f c = k then (k, c :: g) :: rest else (f c, [c]) :: (k, g) :: rest

/-- The (p, q) pairs yielded by `parse_two_idx`: `p` accumulates the run
lengths, and a pair is yielded exactly for the runs whose key is false
(runs of non-delimiter characters). -/
def spans (p : Nat) : List (Bool × List Char) → List (Nat × Nat)
  | [] => []
  | (k, g) :: rest =>
    if k then spans (p + g.length) rest
    else (p, p + g.length) :: spans (p + g.length) rest

/-- The concatenation of the runs, in order. -/
def runsFlat : List (Bool × List Char) → List Char
  | [] => []
  | (_, g) :: rest => g ++ runsFlat rest

/-- Python slice `l[a:b]` for 0 ≤ a ≤ b. -/
def pySlice (l : List Char) (a b : Nat) : List Char :=
  (l.drop a).take (b - a)

/-- `parse_idx(input, delims, keep_delims)` from the source: one `StringIdx`
per (p, q) pair of `parse_two_idx`, carrying `input[p:q]`.  (The
`keep_delims` parameter is accepted and, as in the source, never used.) -/
def parse_idx (input : List Char) (delims : List Char)
    (keep_delims : List Char) : List StringIdx :=
  let _ := keep_delims
  (spans 0 (groupRuns (fun c => delims.contains c) input)).map
    (fun s => ⟨pySlice input s.1 s.2, s.1, s.2⟩)

/-! ## Helper lemmas about the writer -/

theorem dict_to_hdf_hdfOk (l : PyDict) (p : String) (b sd : Bool) :
    (dict_to_hdf l p b sd).hdfOk = (write_level sd l).ok := by
  unfold dict_to_hdf
  by_cases hw : (write_level sd l).ok <;> simp [hw]

theorem dict_to_hdf_entries (l : PyDict) (p : String) (b sd : Bool) :
    (dict_to_hdf l p b sd).hdfEntries = (write_level sd l).entries := by
  unfold dict_to_hdf
  by_cases hw : (write_level sd l).ok <;> simp [hw]

/-! ## Claim theorems: writer error handling (C1, C3, C4, C9) -/

/-- Claim C1, counterexample: a tree whose single leaf is an opaque object
is rejected both by h5py and by json.dumps; with `use_json_backup = true`
the primary write fails, the fallback is attempted and fails, and
`dict_to_hdf` returns False — not True as the claim states. -/
theorem c1_counterexample :
    (dict_to_hdf (.cons "k" (PyData.leaf PyVal.vObj) .nil) "p.h5" true false).hdfOk
      = false
    ∧ (dict_to_hdf (.cons "k" (PyData.leaf PyVal.vObj) .nil) "p.h5" true false).jsonAttempt
      = some ("p.json", 4, false)
    ∧ (dict_to_hdf (.cons "k" (PyData.leaf PyVal.vObj) .nil) "p.h5" true false).ret
      = false := by
  refine ⟨rfl, ?_, rfl⟩
  decide

/-- Claim C1, amended: when the primary write fails and `use_json_backup`
is set, `dict_to_hdf` returns True exactly when the JSON fallback write
itself succeeds; a failed fallback makes the call return False.  Attempting
the fallback is not sufficient for overall success. -/
theorem c1_fallback_result (l : PyDict) (p : String) (sd : Bool)
    (h : (dict_to_hdf l p true sd).hdfOk = false) :
    (dict_to_hdf l p true sd).ret = jsonDumpOk l := by
  rw [dict_to_hdf_hdfOk] at h
  unfold dict_to_hdf
  simp only [h]
  cases hj : jsonDumpOk l <;> simp [hj]

/-- Claim C1, witness for the amended theorem: a None leaf fails the h5py
write but serializes to JSON, so the call returns True = `jsonDumpOk`. -/
theorem c1_fallback_result_witness :
    (dict_to_hdf (.cons "k" (PyData.leaf PyVal.vNone) .nil) "f.h5" true false).hdfOk
      = false
    ∧ (dict_to_hdf (.cons "k" (PyData.leaf PyVal.vNone) .nil) "f.h5" true false).ret
      = jsonDumpOk (.cons "k" (PyData.leaf PyVal.vNone) .nil) :=
  ⟨rfl, c1_fallback_result (.cons "k" (PyData.leaf PyVal.vNone) .nil) "f.h5" false rfl⟩

/-- Claim C3, counterexample: a tree with one rejected leaf (None), written
with `use_json_backup = false`, makes the write fail internally — yet
`dict_to_hdf` returns True, not False as the claim states. -/
theorem c3_counterexample :
    (dict_to_hdf (.cons "k" (PyData.leaf PyVal.vNone) .nil) "f.h5" false false).hdfOk
      = false
    ∧ (dict_to_hdf (.cons "k" (PyData.leaf PyVal.vNone) .nil) "f.h5" false false).ret
      = true
    ∧ (dict_to_hdf (.cons "k" (PyData.leaf PyVal.vNone) .nil) "f.h5" false false).hdfFilePresent
      = true :=
  ⟨rfl, rfl, rfl⟩

/-- Claim C3, amended: when the top-level write fails (and no JSON backup is
requested), the failure is reported only through the printed failure line;
the returned flag is True, and the partially-written container file remains
present on disk. -/
theorem c3_failure_report (l : PyDict) (p : String) (sd : Bool)
    (h : (write_level sd l).ok = false) :
    (dict_to_hdf l p false sd).ret = true
    ∧ (dict_to_hdf l p false sd).hdfFilePresent = true
    ∧ (dict_to_hdf l p false sd).hdfOk = false
    ∧ (dict_to_hdf l p false sd).overallMsg = failMsg detailHint := by
  unfold dict_to_hdf
  simp [h]

/-- Claim C3, witness for the amended theorem at the one-None-leaf tree. -/
theorem c3_failure_report_witness :
    (write_level false (.cons "k" (PyData.leaf PyVal.vNone) .nil)).ok = false
    ∧ (dict_to_hdf (.cons "k" (PyData.leaf PyVal.vNone) .nil) "f.h5" false false).ret
      = true :=
  ⟨rfl, (c3_failure_report (.cons "k" (PyData.leaf PyVal.vNone) .nil) "f.h5" false rfl).1⟩

/-- Claim C4, counterexample: a failing leaf inside the nested sub-mapping
"a" does not abort the enclosing level — the later sibling "c" is still
written — and the whole operation is reported as a success (`hdfOk = true`,
True returned), because `write_level` ignores the boolean of its recursive
call. -/
theorem c4_counterexample :
    (dict_to_hdf
        (.cons "a" (PyData.dict (.cons "b" (PyData.leaf PyVal.vNone) .nil))
          (.cons "c" (PyData.leaf (PyVal.vInt 1)) .nil)) "f.h5" false false).hdfEntries
      = .cons "a" (HNode.grp .nil) (.cons "c" (HNode.dset (HVal.hScalarInt 1)) .nil)
    ∧ (dict_to_hdf
        (.cons "a" (PyData.dict (.cons "b" (PyData.leaf PyVal.vNone) .nil))
          (.cons "c" (PyData.leaf (PyVal.vInt 1)) .nil)) "f.h5" false false).hdfOk
      = true
    ∧ (dict_to_hdf
        (.cons "a" (PyData.dict (.cons "b" (PyData.leaf PyVal.vNone) .nil))
          (.cons "c" (PyData.leaf (PyVal.vInt 1)) .nil)) "f.h5" false false).ret
      = true :=
  ⟨rfl, rfl, rfl⟩

/-- Claim C4, amended: a failing leaf aborts only its own level — nothing
after it at the same level is written and that level reports False — while
a level containing a sub-mapping ignores the outcome of the recursive write,
so failures inside nested sub-mappings neither stop the enclosing level nor
make the operation fail. -/
theorem c4_abort_same_level_only :
    (∀ (sd : Bool) (k : String) (v : PyVal) (rest : PyDict),
      storeVal v = none →
        write_level sd (.cons k (PyData.leaf v) rest)
          = ⟨.nil, false, if sd then [detailMsg k v] else []⟩)
    ∧ (∀ (sd : Bool) (k : String) (d rest : PyDict),
        (write_level sd (.cons k (PyData.dict d) rest)).ok
          = (write_level sd rest).ok) := by
  constructor
  · intro sd k v rest h
    simp [write_level, h]
  · intro sd k d rest
    simp [write_level]

/-- Claim C4, witness for the amended theorem: a failing first leaf yields no
entries at all for its level. -/
theorem c4_abort_same_level_only_witness :
    write_level false
        (.cons "k" (PyData.leaf PyVal.vNone) (.cons "c" (PyData.leaf (PyVal.vInt 0)) .nil))
      = ⟨.nil, false, []⟩ :=
  c4_abort_same_level_only.1 false "k" PyVal.vNone
    (.cons "c" (PyData.leaf (PyVal.vInt 0)) .nil) rfl

/-- Claim C9, confirmed: `dict_to_hdf` returns False exactly on the path
where the backup flag is set, the container write failed, and the JSON dump
raised; in particular with `use_json_backup = false` it returns True on
every (non-raising) execution, failed write included. -/
theorem c9_return_value (l : PyDict) (p : String) (b sd : Bool) :
    ((dict_to_hdf l p b sd).ret = false
      ↔ b = true ∧ (write_level sd l).ok = false ∧ jsonDumpOk l = false)
    ∧ (dict_to_hdf l p false sd).ret = true := by
  constructor
  · by_cases hw : (write_level sd l).ok <;> cases b <;>
      cases hj : jsonDumpOk l <;> simp [dict_to_hdf, hw, hj]
  · by_cases hw : (write_level sd l).ok <;> simp [dict_to_hdf, hw]

/-! ## Claim theorems: reader error handling (C2) and JSON path (C8) -/

/-- Claim C2, counterexample: `hdf_to_dict` on a nonexistent path raises —
the `h5py.File` open sits before the try/except, so the OSError escapes to
the caller instead of being converted to a null result. -/
theorem c2_counterexample :
    hdf_to_dict FileState.absent true true
      = Except.error "OSError: unable to open file (no such file)" := rfl

/-- Claim C2, amended: once the container has been opened successfully,
traversal never lets an exception escape and a dictionary is returned; but a
failure to open the file itself (nonexistent or corrupt path) escapes as a
raised exception. -/
theorem c2_read_errors (tl ds : Bool) (entries : HGroup) :
    hdf_to_dict (FileState.valid entries) tl ds
      = Except.ok (some (read_level tl ds entries))
    ∧ (∃ e, hdf_to_dict FileState.absent tl ds = Except.error e)
    ∧ (∃ e, hdf_to_dict FileState.corrupt tl ds = Except.error e) :=
  ⟨rfl, ⟨_, rfl⟩, ⟨_, rfl⟩⟩

/-- Claim C8, counterexample: for the save path "out.hdf5" the code writes
the fallback at "out.h.json" — it blindly drops the last three characters —
while the sibling path with the extension replaced is "out.json". -/
theorem c8_counterexample :
    (dict_to_hdf (.cons "k" (PyData.leaf PyVal.vNone) .nil) "out.hdf5" true false).jsonAttempt
      = some ("out.h.json", 4, true)
    ∧ specJsonPath "out.hdf5" = "out.json"
    ∧ ("out.h.json" : String) ≠ "out.json" := by
  refine ⟨?_, ?_, ?_⟩ <;> decide

/-- Claim C8, amended: when the primary write fails and the backup flag is
set, the JSON fallback is attempted at `save_file` with its last three
characters dropped and ".json" appended (which equals extension replacement
only for three-character extensions such as ".h5"), passing indent 4 to
`json.dumps`; the dump succeeds exactly when the tree is JSON-serializable. -/
theorem c8_fallback_path (l : PyDict) (p : String) (sd : Bool)
    (h : (dict_to_hdf l p true sd).hdfOk = false) :
    (dict_to_hdf l p true sd).jsonAttempt
      = some (codeJsonPath p, 4, jsonDumpOk l) := by
  rw [dict_to_hdf_hdfOk] at h
  unfold dict_to_hdf
  simp [h]

/-- Claim C8, witness for the amended theorem at a ".h5" path, where the
dropped three characters are exactly the extension. -/
theorem c8_fallback_path_witness :
    (dict_to_hdf (.cons "k" (PyData.leaf PyVal.vNone) .nil) "f.h5" true false).jsonAttempt
      = some (codeJsonPath "f.h5", 4, jsonDumpOk (.cons "k" (PyData.leaf PyVal.vNone) .nil))
    ∧ codeJsonPath "f.h5" = "f.json" := by
  refine ⟨c8_fallback_path (.cons "k" (PyData.leaf PyVal.vNone) .nil) "f.h5" false rfl, ?_⟩
  decide

/-! ## Claim theorems: sequence decoding (C6) -/

/-- Claim C6, counterexample: a byte-string array read with
`to_lists = false` undergoes no list/array conversion, so its elements are
NOT decoded — even though the sequence is non-empty, its first element is a
byte string, and `decode_strs` is true. -/
theorem c6_counterexample :
    readVal false true (HVal.hArrBytes ["a"]) = PyVal.vArr [Elem.eBytes "a"]
    ∧ PyVal.vArr [Elem.eBytes "a"] ≠ PyVal.vArr [Elem.eStr "a"] := by
  refine ⟨rfl, ?_⟩
  decide

/-- Claim C6, amended: sequence elements are decoded to text exactly when a
list/array conversion was applied to the raw value (only the array-to-list
conversion is reachable), independently of `decode_strs`; a byte-string
array kept in array form keeps byte-string elements. -/
theorem c6_sequence_decode (tl ds : Bool) (xs : List String) :
    readVal tl ds (HVal.hArrBytes xs)
      = if tl then PyVal.vList (xs.map Elem.eStr)
        else PyVal.vArr (xs.map Elem.eBytes) := by
  cases tl <;> cases xs <;> simp [readVal]

/-! ## Claim theorems: detail output (C7) -/

/-- Claim C7, counterexample: the tree has a failing leaf inside the nested
sub-mapping "a" and `show_detail` is set, yet no detail line is printed,
because the recursive call in the source does not forward `show_detail`. -/
theorem c7_counterexample :
    (dict_to_hdf (.cons "a" (PyData.dict (.cons "b" (PyData.leaf PyVal.vObj) .nil)) .nil)
        "f.h5" false true).detail = []
    ∧ allRepr (.cons "a" (PyData.dict (.cons "b" (PyData.leaf PyVal.vObj) .nil)) .nil)
      = false :=
  ⟨rfl, rfl⟩

/-- Claim C7, amended: with `show_detail` set, the lines printed by
`write_level` are exactly one detail line — naming the failing key, its
value's Python type, and the adapter's error — for the first failing leaf
at the TOP level, if any; failures inside nested sub-mappings never print
(the flag is not forwarded to recursive calls), and with the flag unset
nothing is printed at all. -/
theorem c7_detail_output (sd : Bool) (l : PyDict) :
    (write_level sd l).out
      = if sd then (firstFailingLeaf l).elim [] (fun kv => [detailMsg kv.1 kv.2])
        else [] := by
  induction sd, l using write_level.induct with
  | case1 sd => simp [write_level, firstFailingLeaf]
  | case2 sd k d rest ih1 ih2 =>
    simp [write_level, firstFailingLeaf, ih1, ih2]
  | case3 sd k v rest hv hs ih =>
    simp [write_level, firstFailingLeaf, hs, ih]
  | case4 sd k v rest hs =>
    simp [write_level, firstFailingLeaf, hs]

/-! ## Round trip (C5): helper lemmas -/

theorem elemsInt_eq (xs : List Elem) (is : List Int) (h : elemsInt xs = some is) :
    xs = is.map Elem.eInt := by
  induction xs generalizing is with
  | nil =>
    simp [elemsInt] at h
    simp [← h]
  | cons x rest ih =>
    cases x with
    | eInt n =>
      simp [elemsInt] at h
      obtain ⟨as, ha, rfl⟩ := h
      simp [ih as ha]
    | eStr s => simp [elemsInt] at h
    | eBytes b => simp [elemsInt] at h

theorem elemsStr_eq (xs : List Elem) (ss : List String) (h : elemsStr xs = some ss) :
    xs = ss.map Elem.eStr := by
  induction xs generalizing ss with
  | nil =>
    simp [elemsStr] at h
    simp [← h]
  | cons x rest ih =>
    cases x with
    | eStr s =>
      simp [elemsStr] at h
      obtain ⟨as, ha, rfl⟩ := h
      simp [ih as ha]
    | eInt n => simp [elemsStr] at h
    | eBytes b => simp [elemsStr] at h

theorem elemsBytes_eq (xs : List Elem) (bs : List String) (h : elemsBytes xs = some bs) :
    xs = bs.map Elem.eBytes := by
  induction xs generalizing bs with
  | nil =>
    simp [elemsBytes] at h
    simp [← h]
  | cons x rest ih =>
    cases x with
    | eBytes b =>
      simp [elemsBytes] at h
      obtain ⟨as, ha, rfl⟩ := h
      simp [ih as ha]
    | eInt n => simp [elemsBytes] at h
    | eStr s => simp [elemsBytes] at h

theorem readVal_storeSeq (tl ds : Bool) (xs : List Elem) (hv : HVal)
    (h : storeSeq xs = some hv) :
    readVal tl ds hv = normSeq tl xs := by
  unfold storeSeq at h
  cases hInt : elemsInt xs with
  | some is =>
    rw [hInt] at h
    obtain rfl : HVal.hArrInt is = hv := by simpa using h
    obtain rfl := elemsInt_eq xs is hInt
    cases tl <;> simp [readVal, normSeq, decodeElem, encodeElem]
  | none =>
    rw [hInt] at h
    cases hStr : elemsStr xs with
    | some ss =>
      rw [hStr] at h
      obtain rfl : HVal.hArrBytes ss = hv := by simpa using h
      obtain rfl := elemsStr_eq xs ss hStr
      cases tl with
      | false => simp [readVal, normSeq, decodeElem, encodeElem]
      | true => cases ss <;> simp [readVal, normSeq, decodeElem, encodeElem]
    | none =>
      rw [hStr] at h
      cases hBytes : elemsBytes xs with
      | some bs =>
        rw [hBytes] at h
        obtain rfl : HVal.hArrBytes bs = hv := by simpa using h
        obtain rfl := elemsBytes_eq xs bs hBytes
        cases tl with
        | false => simp [readVal, normSeq, decodeElem, encodeElem]
        | true => cases bs <;> simp [readVal, normSeq, decodeElem, encodeElem]
      | none => rw [hBytes] at h; simp at h

theorem readVal_storeVal (tl ds : Bool) (v : PyVal) (hv : HVal)
    (h : storeVal v = some hv) :
    readVal tl ds hv = normLeaf tl ds v := by
  cases v with
  | vInt n =>
    obtain rfl : HVal.hScalarInt n = hv := by simpa [storeVal] using h
    simp [readVal, normLeaf]
  | vStr s =>
    obtain rfl : HVal.hScalarBytes s = hv := by simpa [storeVal] using h
    cases ds <;> simp [readVal, normLeaf]
  | vBytes b =>
    obtain rfl : HVal.hScalarBytes b = hv := by simpa [storeVal] using h
    cases ds <;> simp [readVal, normLeaf]
  | vList xs => exact (readVal_storeSeq tl ds xs hv (by simpa [storeVal] using h)).trans rfl
  | vArr xs => exact (readVal_storeSeq tl ds xs hv (by simpa [storeVal] using h)).trans rfl
  | vNone => simp [storeVal] at h
  | vObj => simp [storeVal] at h

theorem roundtrip_level (tl ds : Bool) (sd : Bool) (l : PyDict)
    (h : allRepr l = true) :
    read_level tl ds (write_level sd l).entries = mapLeaves (normLeaf tl ds) l
    ∧ (write_level sd l).ok = true := by
  induction sd, l using write_level.induct with
  | case1 sd => simp [write_level, read_level, mapLeaves]
  | case2 sd k d rest ih1 ih2 =>
    rw [allRepr] at h
    obtain ⟨hd, hrest⟩ := Bool.and_eq_true_iff.mp h
    obtain ⟨e1, _⟩ := ih1 hd
    obtain ⟨e2, o2⟩ := ih2 hrest
    simp [write_level, read_level, mapLeaves, e1, e2, o2]
  | case3 sd k v rest hv hs ih =>
    rw [allRepr] at h
    obtain ⟨_, hrest⟩ := Bool.and_eq_true_iff.mp h
    obtain ⟨e2, o2⟩ := ih hrest
    simp [write_level, read_level, mapLeaves, hs, e2, o2,
      readVal_storeVal tl ds v hv hs]
  | case4 sd k v rest hs =>
    rw [allRepr] at h
    obtain ⟨hr, _⟩ := Bool.and_eq_true_iff.mp h
    rw [reprOk, hs] at hr
    simp at hr

/-! ## Claim theorems: round trip (C5) -/

/-- Claim C5, counterexample: the tree with the single leaf ["a"] (a list
holding one text string) is entirely adapter-representable, but written and
read back with `to_lists = false` and `decode_strings = true` it comes back
as an array of byte strings — neither the original leaf nor the original
sequence merely moved to array form, so the round trip is not equality up
to the two normalizations the claim allows. -/
theorem c5_counterexample :
    hdf_to_dict
        (FileState.valid
          (dict_to_hdf (.cons "c" (PyData.leaf (PyVal.vList [Elem.eStr "a"])) .nil)
            "f.h5" false false).hdfEntries) false true
      = Except.ok (some (.cons "c" (PyData.leaf (PyVal.vArr [Elem.eBytes "a"])) .nil))
    ∧ allRepr (.cons "c" (PyData.leaf (PyVal.vList [Elem.eStr "a"])) .nil) = true
    ∧ PyVal.vArr [Elem.eBytes "a"] ≠ PyVal.vArr [Elem.eStr "a"]
    ∧ PyVal.vArr [Elem.eBytes "a"] ≠ PyVal.vList [Elem.eStr "a"] := by
  refine ⟨rfl, rfl, ?_, ?_⟩ <;> decide

/-- Claim C5, amended: for a tree of adapter-representable leaves, writing
with `dict_to_hdf` and reading back with `hdf_to_dict` yields exactly the
leafwise normalization `normLeaf`: keys and nesting are preserved; sequence
leaves appear in the requested list/array form, their string elements
decoded to text when converted to list form and carried as byte strings
when left in array form; scalar text and byte leaves come back as text
exactly when `decode_strings` is set and as byte strings otherwise. -/
theorem c5_roundtrip (tl ds b sd : Bool) (l : PyDict) (p : String)
    (h : allRepr l = true) :
    hdf_to_dict (FileState.valid (dict_to_hdf l p b sd).hdfEntries) tl ds
      = Except.ok (some (mapLeaves (normLeaf tl ds) l)) := by
  rw [dict_to_hdf_entries]
  simp [hdf_to_dict, (roundtrip_level tl ds sd l h).1]

/-- Claim C5, witness for the amended theorem: the spec's own scenario tree,
written and read back with the default flags, returns exactly itself. -/
theorem c5_roundtrip_witness :
    allRepr
        (.cons "a"
          (PyData.dict
            (.cons "b"
              (PyData.leaf (PyVal.vList [Elem.eInt 1, Elem.eInt 2, Elem.eInt 3])) .nil))
          (.cons "c" (PyData.leaf (PyVal.vStr "hello")) .nil)) = true
    ∧ hdf_to_dict
        (FileState.valid
          (dict_to_hdf
            (.cons "a"
              (PyData.dict
                (.cons "b"
                  (PyData.leaf (PyVal.vList [Elem.eInt 1, Elem.eInt 2, Elem.eInt 3])) .nil))
              (.cons "c" (PyData.leaf (PyVal.vStr "hello")) .nil))
            "f.h5" false false).hdfEntries) true true
      = Except.ok
          (some
            (.cons "a"
              (PyData.dict
                (.cons "b"
                  (PyData.leaf (PyVal.vList [Elem.eInt 1, Elem.eInt 2, Elem.eInt 3])) .nil))
              (.cons "c" (PyData.leaf (PyVal.vStr "hello")) .nil))) :=
  ⟨rfl,
    (c5_roundtrip true true false false
      (.cons "a"
        (PyData.dict
          (.cons "b"
            (PyData.leaf (PyVal.vList [Elem.eInt 1, Elem.eInt 2, Elem.eInt 3])) .nil))
        (.cons "c" (PyData.leaf (PyVal.vStr "hello")) .nil))
      "f.h5" rfl).trans rfl⟩

/-! ## Tokenizer (C10): helper lemmas -/

theorem runsFlat_groupRuns (f : Char → Bool) (l : List Char) :
    runsFlat (groupRuns f l) = l := by
  induction l with
  | nil => rfl
  | cons c cs ih =>
    rw [groupRuns]
    cases hg : groupRuns f cs with
    | nil =>
      rw [hg] at ih
      simp only [runsFlat] at ih
      simp [runsFlat, ← ih]
    | cons kg rest =>
      obtain ⟨k, g⟩ := kg
      rw [hg] at ih
      simp only [runsFlat] at ih
      by_cases hc : f c = k
      · simp only [if_pos hc, runsFlat]
        rw [← ih]
        simp
      · simp only [if_neg hc, runsFlat]
        rw [← ih]
        simp

theorem groupRuns_mem (f : Char → Bool) (l : List Char) (k : Bool) (g : List Char)
    (h : (k, g) ∈ groupRuns f l) : g ≠ [] ∧ ∀ c ∈ g, f c = k := by
  induction l generalizing k g with
  | nil => simp [groupRuns] at h
  | cons c cs ih =>
    rw [groupRuns] at h
    cases hg : groupRuns f cs with
    | nil =>
      rw [hg] at h
      simp at h
      obtain ⟨rfl, rfl⟩ := h
      refine ⟨by simp, ?_⟩
      intro x hx
      simp at hx
      simp [hx]
    | cons kg rest =>
      obtain ⟨k1, g1⟩ := kg
      rw [hg] at h
      dsimp only at h
      by_cases hc : f c = k1
      · rw [if_pos hc] at h
        rcases List.mem_cons.mp h with he | ht
        · obtain ⟨rfl, rfl⟩ : k = k1 ∧ g = c :: g1 := Prod.mk.inj he
          have hh := ih k g1 (by rw [hg]; exact List.mem_cons_self _ _)
          refine ⟨by simp, ?_⟩
          intro x hx
          rcases List.mem_cons.mp hx with rfl | hx2
          · exact hc
          · exact hh.2 x hx2
        · exact ih k g (by rw [hg]; exact List.mem_cons_of_mem _ ht)
      · rw [if_neg hc] at h
        rcases List.mem_cons.mp h with he | ht
        · obtain ⟨rfl, rfl⟩ : k = f c ∧ g = [c] := Prod.mk.inj he
          refine ⟨by simp, ?_⟩
          intro x hx
          simp at hx
          simp [hx]
        · exact ih k g (by rw [hg]; exact ht)

theorem spans_mem_bounds (rs : List (Bool × List Char)) (p a b : Nat)
    (h : (a, b) ∈ spans p rs) :
    p ≤ a ∧ a ≤ b ∧ b ≤ p + (runsFlat rs).length := by
  induction rs generalizing p with
  | nil => simp [spans] at h
  | cons kg rest ih =>
    obtain ⟨k, g⟩ := kg
    rw [spans] at h
    simp only [runsFlat, List.length_append]
    cases k with
    | true =>
      simp only [if_pos rfl] at h
      have hb := ih (p + g.length) h
      omega
    | false =>
      simp only [Bool.false_eq_true, if_neg] at h
      rcases List.mem_cons.mp h with he | ht
      · obtain ⟨rfl, rfl⟩ : a = p ∧ b = p + g.length := Prod.mk.inj he
        omega
      · have hb := ih (p + g.length) ht
        omega

theorem spans_pairwise (rs : List (Bool × List Char)) (p : Nat)
    (hne : ∀ kg ∈ rs, kg.2 ≠ ([] : List Char)) :
    (spans p rs).Pairwise (fun s t => s.2 ≤ t.1 ∧ s.1 < t.1) := by
  induction rs generalizing p with
  | nil => simp [spans]
  | cons kg rest ih =>
    obtain ⟨k, g⟩ := kg
    have hg : g ≠ [] := hne (k, g) (List.mem_cons_self _ _)
    have hgl : 0 < g.length := List.length_pos.mpr hg
    have hrest : ∀ kg ∈ rest, kg.2 ≠ ([] : List Char) :=
      fun x hx => hne x (List.mem_cons_of_mem _ hx)
    rw [spans]
    cases k with
    | true => simpa using ih (p + g.length) hrest
    | false =>
      simp only [Bool.false_eq_true, if_neg]
      refine List.Pairwise.cons ?_ (ih (p + g.length) hrest)
      rintro ⟨a, b⟩ ht
      have hb := spans_mem_bounds rest (p + g.length) a b ht
      simp only
      omega

theorem spans_slice (rs : List (Bool × List Char)) (pre : List Char) (a b : Nat)
    (h : (a, b) ∈ spans pre.length rs) :
    ∃ g, (false, g) ∈ rs ∧ b = a + g.length
      ∧ pySlice (pre ++ runsFlat rs) a b = g := by
  induction rs generalizing pre with
  | nil => simp [spans] at h
  | cons kg rest ih =>
    obtain ⟨k, g⟩ := kg
    rw [spans] at h
    rw [runsFlat, ← List.append_assoc]
    cases k with
    | true =>
      simp only [if_pos rfl] at h
      have h2 : (a, b) ∈ spans (pre ++ g).length rest := by
        simpa [List.length_append] using h
      obtain ⟨g1, hm, hb, hs⟩ := ih (pre ++ g) h2
      exact ⟨g1, List.mem_cons_of_mem _ hm, hb, hs⟩
    | false =>
      simp only [Bool.false_eq_true, if_neg] at h
      rcases List.mem_cons.mp h with he | ht
      · obtain ⟨rfl, rfl⟩ : a = pre.length ∧ b = pre.length + g.length := Prod.mk.inj he
        refine ⟨g, List.mem_cons_self _ _, by omega, ?_⟩
        unfold pySlice
        rw [List.append_assoc, List.drop_left pre (g ++ runsFlat rest)]
        have : pre.length + g.length - pre.length = g.length := by omega
        rw [this]
        exact List.take_left g (runsFlat rest)
      · have h2 : (a, b) ∈ spans (pre ++ g).length rest := by
          simpa [List.length_append] using ht
        obtain ⟨g1, hm, hb, hs⟩ := ih (pre ++ g) h2
        exact ⟨g1, List.mem_cons_of_mem _ hm, hb, hs⟩

theorem spans_cover (f : Char → Bool) (rs : List (Bool × List Char)) (p i : Nat)
    (c : Char) (hc : (runsFlat rs)[i]? = some c)
    (hom : ∀ kg ∈ rs, ∀ x ∈ kg.2, f x = kg.1) :
    (f c = false ↔ ∃ s ∈ spans p rs, s.1 ≤ p + i ∧ p + i < s.2) := by
  induction rs generalizing p i with
  | nil => simp [runsFlat] at hc
  | cons kg rest ih =>
    obtain ⟨k, g⟩ := kg
    rw [runsFlat] at hc
    have homg : ∀ x ∈ g, f x = k :=
      fun x hx => hom (k, g) (List.mem_cons_self _ _) x hx
    have homr : ∀ kg ∈ rest, ∀ x ∈ kg.2, f x = kg.1 :=
      fun y hy => hom y (List.mem_cons_of_mem _ hy)
    rw [spans]
    by_cases hi : i < g.length
    · have hgi : g[i]? = some c := by
        simpa [List.getElem?_append, hi] using hc
      have hcg : c ∈ g := by
        obtain ⟨hlt, rfl⟩ := List.getElem?_eq_some.mp hgi
        exact List.getElem_mem hlt
      have hfc : f c = k := homg c hcg
      cases k with
      | false =>
        rw [hfc]
        constructor
        · intro _
          exact ⟨(p, p + g.length), by simp, by omega, by simpa using by omega⟩
        · intro _
          rfl
      | true =>
        rw [hfc]
        simp only [if_pos rfl]
        constructor
        · intro hx
          exact absurd hx (by simp)
        · rintro ⟨⟨a, b⟩, hs, h1, h2⟩
          have hb := spans_mem_bounds rest (p + g.length) a b hs
          simp only at h1 h2
          exact absurd h1 (by omega)
    · have hrest : (runsFlat rest)[i - g.length]? = some c := by
        simpa [List.getElem?_append, hi] using hc
      have hiq := ih (p + g.length) (i - g.length) hrest homr
      have harith : p + g.length + (i - g.length) = p + i := by omega
      rw [harith] at hiq
      cases k with
      | true => simpa using hiq
      | false =>
        simp only [Bool.false_eq_true, if_neg]
        rw [hiq]
        constructor
        · rintro ⟨s, hs, h1, h2⟩
          exact ⟨s, List.mem_cons_of_mem _ hs, h1, h2⟩
        · rintro ⟨⟨a, b⟩, hs, h1, h2⟩
          rcases List.mem_cons.mp hs with he | ht
          · obtain ⟨rfl, rfl⟩ : a = p ∧ b = p + g.length := Prod.mk.inj he
            simp only at h1 h2
            exact absurd h2 (by omega)
          · exact ⟨(a, b), ht, h1, h2⟩

/-- Claim C10, confirmed: every token returned by `parse_idx` satisfies
`input[idx:idx_end] == str`, is non-empty, has `idx_end = idx + len(str)`,
and contains no delimiter character; tokens are pairwise ordered with
strictly increasing start indices and non-overlapping index ranges; and a
position of the input lies inside some token's range exactly when its
character is not a delimiter — so the tokens cover exactly the runs of
non-delimiter characters. -/
theorem c10_tokens (input delims keep_delims : List Char) :
    (∀ t ∈ parse_idx input delims keep_delims,
        pySlice input t.idx t.idx_end = t.str
        ∧ t.str ≠ []
        ∧ t.idx_end = t.idx + t.str.length
        ∧ ∀ c ∈ t.str, delims.contains c = false)
    ∧ (parse_idx input delims keep_delims).Pairwise
        (fun s t => s.idx < t.idx ∧ s.idx_end ≤ t.idx)
    ∧ (∀ (i : Nat) (c : Char), input[i]? = some c →
        (delims.contains c = false
          ↔ ∃ t ∈ parse_idx input delims keep_delims, t.idx ≤ i ∧ i < t.idx_end)) := by
  have hflat : runsFlat (groupRuns (fun c => delims.contains c) input) = input :=
    runsFlat_groupRuns _ input
  have hne : ∀ kg ∈ groupRuns (fun c => delims.contains c) input,
      kg.2 ≠ ([] : List Char) := by
    rintro ⟨k, g⟩ hkg
    exact (groupRuns_mem _ input k g hkg).1
  refine ⟨?_, ?_, ?_⟩
  · rintro t ht
    rw [parse_idx] at ht
    simp only [List.mem_map] at ht
    obtain ⟨⟨a, b⟩, hs, rfl⟩ := ht
    have hs0 : (a, b) ∈ spans ([] : List Char).length
        (groupRuns (fun c => delims.contains c) input) := hs
    obtain ⟨g, hmem, hb, hsl⟩ := spans_slice _ [] a b hs0
    rw [List.nil_append, hflat] at hsl
    have hgp := groupRuns_mem _ input false g hmem
    refine ⟨rfl, ?_, ?_, ?_⟩
    · simp only [hsl]
      exact hgp.1
    · rw [hsl]
      exact hb
    · intro c hc
      simp only [hsl] at hc
      exact hgp.2 c hc
  · rw [parse_idx]
    rw [List.pairwise_map]
    refine List.Pairwise.imp ?_ (spans_pairwise _ 0 hne)
    rintro ⟨a1, b1⟩ ⟨a2, b2⟩ hr
    exact ⟨hr.2, hr.1⟩
  · intro i c hic
    have hic2 : (runsFlat (groupRuns (fun c => delims.contains c) input))[i]?
        = some c := by rw [hflat]; exact hic
    have hom : ∀ kg ∈ groupRuns (fun c => delims.contains c) input,
        ∀ x ∈ kg.2, delims.contains x = kg.1 := by
      rintro ⟨k, g⟩ hkg x hx
      exact (groupRuns_mem _ input k g hkg).2 x hx
    have hiff := spans_cover (fun c => delims.contains c) _ 0 i c hic2 hom
    simp only [Nat.zero_add] at hiff
    rw [hiff, parse_idx]
    constructor
    · rintro ⟨⟨a, b⟩, hs, h1, h2⟩
      refine ⟨⟨pySlice input a b, a, b⟩, ?_, h1, h2⟩
      simp only [List.mem_map]
      exact ⟨(a, b), hs, rfl⟩
    · rintro ⟨t, ht, h1, h2⟩
      simp only [List.mem_map] at ht
      obtain ⟨⟨a, b⟩, hs, rfl⟩ := ht
      exact ⟨(a, b), hs, h1, h2⟩

/-- Claim C10, witness: the theorem instantiated at the input "ab cd" with
the blank delimiter, for its first token. -/
theorem c10_tokens_witness :
    pySlice "ab cd".toList 0 2 = ['a', 'b']
    ∧ (['a', 'b'] : List Char) ≠ []
    ∧ ∀ c ∈ (['a', 'b'] : List Char), ([' '] : List Char).contains c = false := by
  have h := (c10_tokens "ab cd".toList [' '] []).1 ⟨['a', 'b'], 0, 2⟩ (by decide)
  exact ⟨h.1, h.2.1, h.2.2.2⟩
